import Mathlib

/-!
Shallow embedding of the Secret Santa program (`main.py`).

Python dictionaries are modelled as association lists in insertion order
(`List (Name × β)`); a Python dict has pairwise distinct keys, which theorems
assume via `Nodup` hypotheses on the key list where needed.  `random.choice`
is modelled by an oracle stream `r : Nat → Nat`: the `k`-th random draw on a
list `l` returns `l[r k % l.length]`, so quantifying over all streams covers
every possible sequence of random choices.  The `while` loop of
`assign_secret_santa` is embedded with a fuel parameter instantiated to the
number of unresolved givers; the stabilization theorem below shows this fuel
is always sufficient, so the embedding computes the loop's true result.
-/

namespace SecretSanta

abbrev Name := String

/-- The `participants` dict: each name maps to an optional partner. -/
abbrev Participants := List (Name × Option Name)

/-- A giver → receiver dict (`pre_assigned`, `assignments`). -/
abbrev Assignments := List (Name × Name)

/-- The keys of a dict, in order (`list(d.keys())` / iterating the dict). -/
def keysOf {β : Type} (l : List (Name × β)) : List Name := l.map Prod.fst

/-- The values of an assignment dict, in order (`d.values()`). -/
def valuesOf (l : Assignments) : List Name := l.map Prod.snd

/-- `participants[name]`: the partner entry of `name` (always called with
`name` a key of the dict, where the lookup succeeds). -/
def partnerOf (ps : Participants) (n : Name) : Option Name :=
  (ps.lookup n).getD none

/-- The comprehension `[n for n in participants if n != santa and
n != participants[santa]]` (line 28 and line 116 of `main.py`): in Python,
`n != participants[santa]` compares a string with `str | None`, so it is
true exactly when the partner entry is not `some n`. -/
def candidates (ps : Participants) (santa : Name) : List Name :=
  (keysOf ps).filter (fun n => n != santa && partnerOf ps santa != some n)

/-- `is_assignment_possible` (lines 15–31): return `False` as soon as some
participant's candidate list is empty, else `True`. -/
def is_assignment_possible (ps : Participants) : Bool :=
  (keysOf ps).all (fun santa => !(candidates ps santa).isEmpty)

/-- `random.choice(l)` under the oracle value `k`: element `k % l.length`. -/
def pick (l : List Name) (k : Nat) : Name := l.getD (k % l.length) ""

/-- Python dict assignment `d[k] = v`: update in place when the key exists
(keeping its position), otherwise append the new pair. -/
def dictInsert (l : Assignments) (k v : Name) : Assignments :=
  if (keysOf l).contains k then l.map (fun p => if p.1 == k then (p.1, v) else p)
  else l ++ [(k, v)]

/-- Lines 136–138: remove the chosen giftee from every candidate list
(`list.remove` deletes the first occurrence, guarded by a membership test,
which is exactly `List.erase`). -/
def eraseAll (valid : List (Name × List Name)) (g : Name) : List (Name × List Name) :=
  valid.map (fun p => (p.1, p.2.erase g))

/-- The `while all_names:` loop of `assign_secret_santa` (lines 121–140),
with an explicit fuel bound on the number of iterations.  Each iteration:
pick a random unresolved santa, filter its current candidate list by the
receivers already used in `assignments`, return `none` if nothing remains,
else pick a random giftee, record it, drop the santa from the worklist and
the giftee from every candidate list. -/
def assignLoop : Nat → List (Name × List Name) → Assignments → List Name → (Nat → Nat) →
    Option Assignments
  | 0, _, asg, names, _ => if names.isEmpty then some asg else none
  | fuel + 1, valid, asg, names, r =>
    if names.isEmpty then some asg
    else
      let santa := pick names (r 0)
      let possible := ((valid.lookup santa).getD []).filter
        (fun x => !(valuesOf asg).contains x)
      if possible.isEmpty then none
      else
        let giftee := pick possible (r 1)
        assignLoop fuel (eraseAll valid giftee) (dictInsert asg santa giftee)
          (names.erase santa) (fun i => r (i + 2))

/-- Line 116: `valid_assignments = {name: [...] for name in all_names}`. -/
def buildValid (ps : Participants) : List (Name × List Name) :=
  (keysOf ps).map (fun n => (n, candidates ps n))

/-- Line 119: `all_names = [name for name in all_names if name not in pre_assigned]`. -/
def unresolved (ps : Participants) (pre : Assignments) : List Name :=
  (keysOf ps).filter (fun n => !(keysOf pre).contains n)

/-- `assign_secret_santa` (lines 104–140).  The fuel `(unresolved ps pre).length`
is exactly the number of loop iterations needed; sufficiency is proved by
`assignLoop_fuel_stable` below. -/
def assign_secret_santa (ps : Participants) (pre : Assignments) (r : Nat → Nat) :
    Option Assignments :=
  assignLoop (unresolved ps pre).length (buildValid ps) pre (unresolved ps pre) r

/-! ### Basic lemmas about the dict embedding -/

theorem contains_iff (l : List Name) (a : Name) : l.contains a = true ↔ a ∈ l := by
  simp

theorem contains_false_iff (l : List Name) (a : Name) :
    l.contains a = false ↔ a ∉ l := by
  simp

theorem pick_mem (l : List Name) (k : Nat) (h : l ≠ []) : pick l k ∈ l := by
  have hlen : 0 < l.length := List.length_pos.mpr h
  have hk : k % l.length < l.length := Nat.mod_lt _ hlen
  rw [pick, List.getD_eq_getElem l "" hk]
  exact l.getElem_mem hk

theorem lookup_mem {β : Type} {al : List (Name × β)} {a : Name} {b : β}
    (h : al.lookup a = some b) : (a, b) ∈ al := by
  induction al with
  | nil => simp at h
  | cons hd tl ih =>
    obtain ⟨k, v⟩ := hd
    rw [List.lookup_cons] at h
    cases he : a == k with
    | true =>
      have hk : a = k := by simpa using he
      subst hk
      have hb : v = b := by simpa using h
      subst hb
      exact List.mem_cons_self _ _
    | false =>
      rw [he] at h
      exact List.mem_cons_of_mem _ (ih h)

theorem exists_lookup_of_mem_keys {β : Type} {al : List (Name × β)} {a : Name}
    (h : a ∈ keysOf al) : ∃ b, al.lookup a = some b := by
  induction al with
  | nil => simp [keysOf] at h
  | cons hd tl ih =>
    obtain ⟨k, v⟩ := hd
    cases he : a == k with
    | true => exact ⟨v, by rw [List.lookup_cons, he]⟩
    | false =>
      rw [keysOf, List.map_cons, List.mem_cons] at h
      rcases h with h | h
      · exact absurd (by simpa using h) (by simpa using he)
      · rcases ih h with ⟨b, hb⟩
        exact ⟨b, by rw [List.lookup_cons, he]; exact hb⟩

theorem lookup_eq_of_mem_of_nodup {β : Type} {al : List (Name × β)} {a : Name} {b : β}
    (hnd : (keysOf al).Nodup) (h : (a, b) ∈ al) : al.lookup a = some b := by
  induction al with
  | nil => simp at h
  | cons hd tl ih =>
    obtain ⟨k, v⟩ := hd
    rw [keysOf, List.map_cons, List.nodup_cons] at hnd
    rcases List.mem_cons.mp h with h | h
    · rw [Prod.mk.injEq] at h
      obtain ⟨rfl, rfl⟩ := h
      rw [List.lookup_cons, show (a == a) = true by simp]
    · have he : (a == k) = false := by
        rw [beq_eq_false_iff_ne]
        intro hk
        apply hnd.1
        rw [← hk]
        exact List.mem_map.mpr ⟨(a, b), h, rfl⟩
      rw [List.lookup_cons, he]
      exact ih hnd.2 h

theorem lookup_append_left {β : Type} {al₁ al₂ : List (Name × β)} {a : Name} {b : β}
    (h : al₁.lookup a = some b) : (al₁ ++ al₂).lookup a = some b := by
  induction al₁ with
  | nil => simp at h
  | cons hd tl ih =>
    obtain ⟨k, v⟩ := hd
    rw [List.lookup_cons] at h
    rw [List.cons_append, List.lookup_cons]
    cases he : a == k with
    | true =>
      rw [he] at h
      have hb : v = b := by simpa using h
      simp [hb]
    | false =>
      rw [he] at h
      exact ih h

theorem lookup_map_self {f : Name → List Name} {xs : List Name} {a : Name}
    (h : a ∈ xs) : (xs.map fun n => (n, f n)).lookup a = some (f a) := by
  induction xs with
  | nil => simp at h
  | cons hd tl ih =>
    rw [List.map_cons, List.lookup_cons]
    cases he : a == hd with
    | true =>
      have hk : a = hd := by simpa using he
      subst hk
      rfl
    | false =>
      rcases List.mem_cons.mp h with h | h
      · exact absurd (by simpa using h) (by simpa using he)
      · exact ih h

theorem lookup_eraseAll {valid : List (Name × List Name)} {g a : Name} :
    (eraseAll valid g).lookup a = (valid.lookup a).map (fun l => l.erase g) := by
  induction valid with
  | nil => simp [eraseAll]
  | cons hd tl ih =>
    obtain ⟨k, v⟩ := hd
    rw [eraseAll, List.map_cons]
    rw [List.lookup_cons, List.lookup_cons]
    cases he : a == k with
    | true => rfl
    | false => exact ih

theorem mem_eraseAll {valid : List (Name × List Name)} {g a : Name} {l' : List Name}
    (h : (a, l') ∈ eraseAll valid g) : ∃ l, (a, l) ∈ valid ∧ l' = l.erase g := by
  rw [eraseAll] at h
  rcases List.mem_map.mp h with ⟨p, hp, he⟩
  rw [Prod.mk.injEq] at he
  refine ⟨p.2, ?_, he.2.symm⟩
  rw [← he.1]
  exact hp

theorem mem_dictInsert {al : Assignments} {k v : Name} {p : Name × Name}
    (h : p ∈ dictInsert al k v) : p ∈ al ∨ p = (k, v) := by
  rw [dictInsert] at h
  by_cases hc : (keysOf al).contains k
  · rw [if_pos hc] at h
    rcases List.mem_map.mp h with ⟨q, hq, he⟩
    by_cases hqk : q.1 == k
    · right
      rw [if_pos hqk] at he
      have : q.1 = k := by simpa using hqk
      rw [← he, this]
    · left
      rw [if_neg hqk] at he
      exact he ▸ hq
  · rw [if_neg hc] at h
    rcases List.mem_append.mp h with h | h
    · exact Or.inl h
    · exact Or.inr (by simpa using h)

theorem dictInsert_of_not_mem {al : Assignments} {k : Name} (v : Name)
    (h : k ∉ keysOf al) : dictInsert al k v = al ++ [(k, v)] := by
  rw [dictInsert, if_neg]
  simpa using h

theorem keysOf_append {β : Type} (l₁ l₂ : List (Name × β)) :
    keysOf (l₁ ++ l₂) = keysOf l₁ ++ keysOf l₂ := List.map_append _ _ _

theorem valuesOf_append (l₁ l₂ : Assignments) :
    valuesOf (l₁ ++ l₂) = valuesOf l₁ ++ valuesOf l₂ := List.map_append _ _ _

theorem ne_nil_of_isEmpty_false {l : List Name} (h : l.isEmpty = false) : l ≠ [] := by
  intro h0
  subst h0
  simp at h

/-! ### Unfolding lemmas for the assignment loop -/

theorem assignLoop_nil (fuel : Nat) (valid : List (Name × List Name)) (asg : Assignments)
    (r : Nat → Nat) : assignLoop fuel valid asg [] r = some asg := by
  cases fuel <;> rfl

theorem assignLoop_stuck (fuel : Nat) (valid : List (Name × List Name)) (asg : Assignments)
    (names : List Name) (r : Nat → Nat) (hne : names.isEmpty = false)
    {santa : Name} {possible : List Name} (hs : santa = pick names (r 0))
    (hpdef : possible = ((valid.lookup santa).getD []).filter
      (fun x => !(valuesOf asg).contains x))
    (hposs : possible.isEmpty = true) :
    assignLoop (fuel + 1) valid asg names r = none := by
  subst hs
  subst hpdef
  rw [assignLoop, hne]
  simp only [Bool.false_eq_true, if_false, hposs, if_true]

theorem assignLoop_step (fuel : Nat) (valid : List (Name × List Name)) (asg : Assignments)
    (names : List Name) (r : Nat → Nat) (hne : names.isEmpty = false)
    {santa : Name} {possible : List Name} (hs : santa = pick names (r 0))
    (hpdef : possible = ((valid.lookup santa).getD []).filter
      (fun x => !(valuesOf asg).contains x))
    (hposs : possible.isEmpty = false) :
    assignLoop (fuel + 1) valid asg names r =
      assignLoop fuel (eraseAll valid (pick possible (r 1)))
        (dictInsert asg santa (pick possible (r 1)))
        (names.erase santa) (fun i => r (i + 2)) := by
  subst hs
  subst hpdef
  rw [assignLoop, hne]
  simp only [Bool.false_eq_true, if_false, hposs]

/-- The loop's fuel can be lowered to the worklist length without changing the
result: one surplus fuel unit is never consumed. -/
theorem assignLoop_fuel_succ : ∀ (fuel : Nat) (valid : List (Name × List Name))
    (asg : Assignments) (names : List Name) (r : Nat → Nat), names.length ≤ fuel →
    assignLoop (fuel + 1) valid asg names r = assignLoop fuel valid asg names r := by
  intro fuel
  induction fuel with
  | zero =>
    intro valid asg names r h
    have hn : names = [] := List.eq_nil_of_length_eq_zero (Nat.le_zero.mp h)
    subst hn
    rfl
  | succ fuel ih =>
    intro valid asg names r h
    cases hn : names.isEmpty with
    | true =>
      obtain rfl : names = [] := List.isEmpty_iff.mp hn
      rfl
    | false =>
      have hmem : pick names (r 0) ∈ names := pick_mem _ _ (ne_nil_of_isEmpty_false hn)
      have hlen : (names.erase (pick names (r 0))).length ≤ fuel := by
        rw [List.length_erase_of_mem hmem]
        have : 0 < names.length := List.length_pos.mpr (ne_nil_of_isEmpty_false hn)
        omega
      cases hposs : (((valid.lookup (pick names (r 0))).getD []).filter
          (fun x => !(valuesOf asg).contains x)).isEmpty with
      | true =>
        rw [assignLoop_stuck (fuel + 1) valid asg names r hn rfl rfl hposs,
          assignLoop_stuck fuel valid asg names r hn rfl rfl hposs]
      | false =>
        rw [assignLoop_step (fuel + 1) valid asg names r hn rfl rfl hposs,
          assignLoop_step fuel valid asg names r hn rfl rfl hposs]
        exact ih _ _ _ _ hlen

/-- Fuel `names.length` computes the loop's true (fuel-independent) result. -/
theorem assignLoop_fuel_stable (valid : List (Name × List Name)) (asg : Assignments)
    (names : List Name) (r : Nat → Nat) : ∀ f, names.length ≤ f →
    assignLoop f valid asg names r = assignLoop names.length valid asg names r := by
  intro f
  induction f with
  | zero =>
    intro h
    rw [Nat.le_zero.mp h]
  | succ f ih =>
    intro h
    rcases Nat.lt_or_ge names.length (f + 1) with hlt | hge
    · have hf : names.length ≤ f := Nat.lt_succ_iff.mp hlt
      rw [assignLoop_fuel_succ f valid asg names r hf]
      exact ih hf
    · rw [Nat.le_antisymm h hge]

/-! ### Where the pairs of a successful result come from -/

/-- Every pair of a successful loop result was either already present, or pairs
a giver with an element of that giver's current candidate list. -/
theorem assignLoop_mem : ∀ (fuel : Nat) (valid : List (Name × List Name))
    (asg : Assignments) (names : List Name) (r : Nat → Nat) (m : Assignments),
    assignLoop fuel valid asg names r = some m →
    ∀ p ∈ m, p ∈ asg ∨ ∃ l, (p.1, l) ∈ valid ∧ p.2 ∈ l := by
  intro fuel
  induction fuel with
  | zero =>
    intro valid asg names r m h p hp
    rw [assignLoop] at h
    split at h
    · obtain rfl : asg = m := Option.some.inj h
      exact Or.inl hp
    · exact absurd h (by simp)
  | succ fuel ih =>
    intro valid asg names r m h p hp
    cases hn : names.isEmpty with
    | true =>
      obtain rfl : names = [] := List.isEmpty_iff.mp hn
      rw [assignLoop_nil] at h
      obtain rfl : asg = m := Option.some.inj h
      exact Or.inl hp
    | false =>
      cases hposs : (((valid.lookup (pick names (r 0))).getD []).filter
          (fun x => !(valuesOf asg).contains x)).isEmpty with
      | true =>
        rw [assignLoop_stuck fuel valid asg names r hn rfl rfl hposs] at h
        exact absurd h (by simp)
      | false =>
        rw [assignLoop_step fuel valid asg names r hn rfl rfl hposs] at h
        rcases ih _ _ _ _ _ h p hp with hmem | ⟨l', hl', hpl⟩
        · rcases mem_dictInsert hmem with hmem | hpe
          · exact Or.inl hmem
          · right
            have hgm : pick (((valid.lookup (pick names (r 0))).getD []).filter
                (fun x => !(valuesOf asg).contains x)) (r 1) ∈
                ((valid.lookup (pick names (r 0))).getD []).filter
                  (fun x => !(valuesOf asg).contains x) :=
              pick_mem _ _ (ne_nil_of_isEmpty_false hposs)
            have hgbase := (List.mem_filter.mp hgm).1
            cases hlk : (valid.lookup (pick names (r 0))) with
            | none =>
              rw [hlk] at hgbase
              simp at hgbase
            | some l₀ =>
              have hgl : ((valid.lookup (pick names (r 0))).getD []) = l₀ := by
                simp [hlk]
              refine ⟨l₀, ?_, ?_⟩
              · have := lookup_mem hlk
                rw [hpe]
                exact this
              · rw [hpe]
                rw [hgl] at hgbase ⊢
                exact hgbase
        · rcases mem_eraseAll hl' with ⟨l, hl, rfl⟩
          exact Or.inr ⟨l, hl, List.mem_of_mem_erase hpl⟩

/-- Structural invariants of a successful loop run, for a worklist of distinct
givers none of which is already assigned: the result extends `asg` (pairs are
only appended, never overwritten), its keys are the old keys plus the worklist
(up to permutation), and distinctness of the used receivers is preserved. -/
theorem assignLoop_invariants : ∀ (fuel : Nat) (valid : List (Name × List Name))
    (asg : Assignments) (names : List Name) (r : Nat → Nat) (m : Assignments),
    assignLoop fuel valid asg names r = some m →
    (∀ n ∈ names, n ∉ keysOf asg) →
    names.Nodup →
    (∃ t, m = asg ++ t) ∧ List.Perm (keysOf m) (keysOf asg ++ names) ∧
      ((valuesOf asg).Nodup → (valuesOf m).Nodup) := by
  intro fuel
  induction fuel with
  | zero =>
    intro valid asg names r m h hdisj hnd
    rw [assignLoop] at h
    split at h
    · rename_i hn
      obtain rfl : asg = m := Option.some.inj h
      obtain rfl : names = [] := List.isEmpty_iff.mp hn
      exact ⟨⟨[], (List.append_nil _).symm⟩, by simp, fun hv => hv⟩
    · exact absurd h (by simp)
  | succ fuel ih =>
    intro valid asg names r m h hdisj hnd
    cases hn : names.isEmpty with
    | true =>
      obtain rfl : names = [] := List.isEmpty_iff.mp hn
      rw [assignLoop_nil] at h
      obtain rfl : asg = m := Option.some.inj h
      exact ⟨⟨[], (List.append_nil _).symm⟩, by simp, fun hv => hv⟩
    | false =>
      cases hposs : (((valid.lookup (pick names (r 0))).getD []).filter
          (fun x => !(valuesOf asg).contains x)).isEmpty with
      | true =>
        rw [assignLoop_stuck fuel valid asg names r hn rfl rfl hposs] at h
        exact absurd h (by simp)
      | false =>
        rw [assignLoop_step fuel valid asg names r hn rfl rfl hposs] at h
        set santa := pick names (r 0) with hsdef
        set possible := ((valid.lookup santa).getD []).filter
          (fun x => !(valuesOf asg).contains x) with hpdef
        set giftee := pick possible (r 1) with hgdef
        have hsm : santa ∈ names := by
          rw [hsdef]
          exact pick_mem _ _ (ne_nil_of_isEmpty_false hn)
        have hgposs : giftee ∈ possible := by
          rw [hgdef]
          exact pick_mem _ _ (ne_nil_of_isEmpty_false hposs)
        have hgval : giftee ∉ valuesOf asg := by
          rw [hpdef] at hgposs
          have := (List.mem_filter.mp hgposs).2
          simpa using this
        rw [dictInsert_of_not_mem giftee (hdisj _ hsm)] at h
        have hdisj' : ∀ n ∈ names.erase santa,
            n ∉ keysOf (asg ++ [(santa, giftee)]) := by
          intro n hne'
          have hn1 : n ∈ names := List.mem_of_mem_erase hne'
          have hn2 : n ≠ santa := by
            intro heq
            subst heq
            exact hnd.not_mem_erase hne'
          rw [keysOf_append]
          intro hcon
          rcases List.mem_append.mp hcon with hcon | hcon
          · exact hdisj _ hn1 hcon
          · exact hn2 (by simpa [keysOf] using hcon)
        obtain ⟨⟨t, rfl⟩, hkm, hvm⟩ := ih _ _ _ _ _ h hdisj' (hnd.erase _)
        refine ⟨⟨(santa, giftee) :: t, by rw [List.append_assoc]; rfl⟩, ?_, ?_⟩
        · refine hkm.trans ?_
          rw [keysOf_append, List.append_assoc]
          exact List.Perm.append_left _ (List.perm_cons_erase hsm).symm
        · intro hv
          apply hvm
          rw [valuesOf_append]
          refine List.Nodup.append hv (by simp [valuesOf]) ?_
          intro a ha hb
          have : a = giftee := by simpa [valuesOf] using hb
          rw [this] at ha
          exact hgval ha

/-! ### Engine-level consequences -/

theorem unresolved_nodup (ps : Participants) (pre : Assignments)
    (hnd : (keysOf ps).Nodup) : (unresolved ps pre).Nodup := hnd.filter _

theorem unresolved_not_pre (ps : Participants) (pre : Assignments) :
    ∀ n ∈ unresolved ps pre, n ∉ keysOf pre := by
  intro n hn
  have := (List.mem_filter.mp hn).2
  simpa using this

theorem unresolved_subset (ps : Participants) (pre : Assignments) :
    ∀ n ∈ unresolved ps pre, n ∈ keysOf ps := by
  intro n hn
  exact (List.mem_filter.mp hn).1

/-- Every pair of a successful engine result is a pre-assignment or pairs a
giver with one of its candidates (not itself, not its partner). -/
theorem engine_mem {ps : Participants} {pre : Assignments} {r : Nat → Nat}
    {m : Assignments} (h : assign_secret_santa ps pre r = some m) :
    ∀ p ∈ m, p ∈ pre ∨ p.2 ∈ candidates ps p.1 := by
  intro p hp
  rw [assign_secret_santa] at h
  rcases assignLoop_mem _ _ _ _ _ _ h p hp with h1 | ⟨l, hl, h2⟩
  · exact Or.inl h1
  · rw [buildValid] at hl
    rcases List.mem_map.mp hl with ⟨n, hn, he⟩
    rw [Prod.mk.injEq] at he
    obtain ⟨h3, h4⟩ := he
    right
    rw [← h4] at h2
    rw [h3] at h2
    exact h2

/-- A successful engine result extends `pre` by appended pairs, its keys are
`pre`'s keys plus the unresolved givers up to permutation, and receiver
distinctness is preserved. -/
theorem engine_invariants {ps : Participants} {pre : Assignments} {r : Nat → Nat}
    {m : Assignments} (hnd : (keysOf ps).Nodup)
    (h : assign_secret_santa ps pre r = some m) :
    (∃ t, m = pre ++ t) ∧
      List.Perm (keysOf m) (keysOf pre ++ unresolved ps pre) ∧
      ((valuesOf pre).Nodup → (valuesOf m).Nodup) := by
  rw [assign_secret_santa] at h
  exact assignLoop_invariants _ _ _ _ _ _ h (unresolved_not_pre ps pre)
    (unresolved_nodup ps pre hnd)

/-! ### Claims -/

/-- C1: for every participants mapping, pre-assigned mapping and random
sequence, if `assign_secret_santa` returns a mapping, then every giver `G`
that is not a pre-assigned key receives a recipient that is neither `G`
itself nor `G`'s declared partner `participants[G]`. -/
theorem c1_no_self_no_partner (ps : Participants) (pre : Assignments)
    (r : Nat → Nat) (m : Assignments) (h : assign_secret_santa ps pre r = some m)
    (G x : Name) (hx : m.lookup G = some x) (hG : G ∉ keysOf pre) :
    x ≠ G ∧ partnerOf ps G ≠ some x := by
  have hp := lookup_mem hx
  rcases engine_mem h _ hp with hc | hc
  · exact absurd (List.mem_map.mpr ⟨(G, x), hc, rfl⟩) hG
  · rw [candidates] at hc
    have hcond := (List.mem_filter.mp hc).2
    simp only [Bool.and_eq_true, bne_iff_ne, ne_eq] at hcond
    exact ⟨hcond.1, hcond.2⟩

/-- Witness for C1 on the concrete run of scenario C. -/
theorem c1_no_self_no_partner_witness :
    ("C" : Name) ≠ "B" ∧
      partnerOf [("A", none), ("B", none), ("C", none)] "B" ≠ some "C" :=
  c1_no_self_no_partner [("A", none), ("B", none), ("C", none)] [("A", "B")]
    (fun i => i) [("A", "B"), ("B", "C"), ("C", "A")] (by decide) "B" "C"
    (by decide) (by decide)

/-- For participant dicts with distinct keys and pre-assignments whose keys
and values lie in the participant set with pairwise-distinct values, every
non-null engine result is a bijection on the participant set. -/
theorem engine_bijection (ps : Participants) (pre : Assignments) (r : Nat → Nat)
    (m : Assignments) (hnd : (keysOf ps).Nodup) (hpk : (keysOf pre).Nodup)
    (hksub : ∀ g ∈ keysOf pre, g ∈ keysOf ps)
    (hvsub : ∀ v ∈ valuesOf pre, v ∈ keysOf ps)
    (hvnd : (valuesOf pre).Nodup) (h : assign_secret_santa ps pre r = some m) :
    List.Perm (keysOf m) (keysOf ps) ∧ List.Perm (valuesOf m) (keysOf ps) := by
  obtain ⟨⟨t, hm⟩, hkm, hvm⟩ := engine_invariants hnd h
  have hkeys : List.Perm (keysOf m) (keysOf ps) := by
    refine hkm.trans ?_
    rw [List.perm_ext_iff_of_nodup ?nd1 hnd]
    case nd1 =>
      rw [List.nodup_append]
      refine ⟨hpk, unresolved_nodup ps pre hnd, ?_⟩
      intro a ha hb
      exact unresolved_not_pre ps pre a hb ha
    intro a
    rw [List.mem_append]
    constructor
    · rintro (ha | ha)
      · exact hksub _ ha
      · exact unresolved_subset ps pre _ ha
    · intro ha
      by_cases hb : a ∈ keysOf pre
      · exact Or.inl hb
      · refine Or.inr (List.mem_filter.mpr ⟨ha, ?_⟩)
        simpa using hb
  refine ⟨hkeys, ?_⟩
  have hvnd' : (valuesOf m).Nodup := hvm hvnd
  have hsub : valuesOf m ⊆ keysOf ps := by
    intro v hv
    rcases List.mem_map.mp hv with ⟨p, hp, rfl⟩
    rcases engine_mem h p hp with hc | hc
    · exact hvsub _ (List.mem_map.mpr ⟨p, hc, rfl⟩)
    · rw [candidates] at hc
      exact (List.mem_filter.mp hc).1
  have hlen : (keysOf ps).length ≤ (valuesOf m).length := by
    have h1 : (valuesOf m).length = m.length := List.length_map _ _
    have h2 : (keysOf m).length = m.length := List.length_map _ _
    have h3 := hkeys.length_eq
    omega
  exact (hvnd'.subperm hsub).perm_of_length_le hlen

/-- C2: for participant dicts with distinct keys and pre-assignments whose
keys and values lie in the participant set with pairwise-distinct values,
every non-null result of `assign_secret_santa` is a bijection on the
participant set: its keys are exactly the participants and its receivers are
exactly the participants, each occurring once — no duplicates, no omissions. -/
theorem c2_bijection (ps : Participants) (pre : Assignments) (r : Nat → Nat)
    (m : Assignments) (hnd : (keysOf ps).Nodup) (hpk : (keysOf pre).Nodup)
    (hksub : ∀ g ∈ keysOf pre, g ∈ keysOf ps)
    (hvsub : ∀ v ∈ valuesOf pre, v ∈ keysOf ps)
    (hvnd : (valuesOf pre).Nodup) (h : assign_secret_santa ps pre r = some m) :
    List.Perm (keysOf m) (keysOf ps) ∧ List.Perm (valuesOf m) (keysOf ps) :=
  engine_bijection ps pre r m hnd hpk hksub hvsub hvnd h

/-- Witness for C2 on the concrete run of scenario C. -/
theorem c2_bijection_witness :
    List.Perm (keysOf [(("A" : Name), ("B" : Name)), ("B", "C"), ("C", "A")])
      (keysOf [(("A" : Name), (none : Option Name)), ("B", none), ("C", none)]) ∧
    List.Perm (valuesOf [(("A" : Name), ("B" : Name)), ("B", "C"), ("C", "A")])
      (keysOf [(("A" : Name), (none : Option Name)), ("B", none), ("C", none)]) :=
  c2_bijection [("A", none), ("B", none), ("C", none)] [("A", "B")] (fun i => i)
    [("A", "B"), ("B", "C"), ("C", "A")] (by decide) (by decide) (by decide)
    (by decide) (by decide) (by decide)

/-- C3: pre-assigned entries are preserved verbatim: whatever `pre_assigned`
maps a giver to, the returned mapping looks that giver up to the same
receiver; the engine never overwrites a pre-assignment. -/
theorem c3_pre_assigned_preserved (ps : Participants) (pre : Assignments)
    (r : Nat → Nat) (m : Assignments) (hnd : (keysOf ps).Nodup)
    (h : assign_secret_santa ps pre r = some m) :
    ∀ G v, pre.lookup G = some v → m.lookup G = some v := by
  obtain ⟨⟨t, rfl⟩, _, _⟩ := engine_invariants hnd h
  intro G v hv
  exact lookup_append_left hv

/-- Witness for C3 on the concrete run of scenario C. -/
theorem c3_pre_assigned_preserved_witness :
    List.lookup ("A" : Name) [(("A" : Name), ("B" : Name)), ("B", "C"), ("C", "A")] =
      some "B" :=
  c3_pre_assigned_preserved [("A", none), ("B", none), ("C", none)] [("A", "B")]
    (fun i => i) [("A", "B"), ("B", "C"), ("C", "A")] (by decide) (by decide)
    "A" "B" (by decide)

/-- C5: `is_assignment_possible` returns `false` exactly when some participant
has an empty candidate set (everyone excluded as self or partner), and `true`
otherwise — independently of whether a global bijective assignment exists. -/
theorem c5_feasibility_iff (ps : Participants) :
    is_assignment_possible ps = false ↔ ∃ p ∈ keysOf ps, candidates ps p = [] := by
  rw [is_assignment_possible, Bool.eq_false_iff, Ne, List.all_eq_true]
  simp [List.isEmpty_iff]

/-- C9: a single engine call terminates after at most one loop iteration per
unresolved giver: with any fuel of at least `(unresolved ps pre).length`
iterations the loop gives the same result as the embedding's exact budget,
so the `while` loop never needs more iterations than unresolved givers. -/
theorem c9_loop_iterations_bounded (ps : Participants) (pre : Assignments)
    (r : Nat → Nat) (fuel : Nat) (h : (unresolved ps pre).length ≤ fuel) :
    assignLoop fuel (buildValid ps) pre (unresolved ps pre) r =
      assign_secret_santa ps pre r :=
  assignLoop_fuel_stable _ _ _ _ fuel h

/-- Witness for C9: seven units of fuel already suffice for scenario C. -/
theorem c9_loop_iterations_bounded_witness :
    assignLoop 7 (buildValid [("A", none), ("B", none), ("C", none)])
      [("A", "B")] (unresolved [("A", none), ("B", none), ("C", none)] [("A", "B")])
      (fun i => i) =
      assign_secret_santa [("A", none), ("B", none), ("C", none)] [("A", "B")]
        (fun i => i) :=
  c9_loop_iterations_bounded [("A", none), ("B", none), ("C", none)] [("A", "B")]
    (fun i => i) 7 (by decide)

/-- Python truthiness of the value the driving loop `while not assignment`
tests: `None` and the empty dict are both falsy. -/
def pyTruthy : Option Assignments → Bool
  | none => false
  | some m => !m.isEmpty

/-- C10: on the empty participant set with no pre-assignments the feasibility
check passes and the engine returns the empty mapping (a success value), yet
that value is as falsy as the `None` failure signal, so the driving loop
`while not assignment` cannot tell them apart. -/
theorem c10_empty_success_indistinguishable :
    is_assignment_possible [] = true ∧
      (∀ r, assign_secret_santa [] [] r = some []) ∧
      pyTruthy (some []) = pyTruthy none :=
  ⟨rfl, fun _ => rfl, rfl⟩

/-- State-passing embedding of one call `assign_secret_santa(participants,
pre_assigned)`: the callee receives the caller's two dicts and returns its
result together with those dicts as they stand when the call returns.  The
body mirrors lines 115–119: the candidate index and worklist are derived
afresh from `participants`, and `assignments` starts from a copy of
`pre_assigned`, so neither input is written to. -/
def assign_secret_santa_call (st : Participants × Assignments) (r : Nat → Nat) :
    Option Assignments × (Participants × Assignments) :=
  (assignLoop (unresolved st.1 st.2).length (buildValid st.1) st.2
    (unresolved st.1 st.2) r, st)

/-- C8: a call to the engine leaves both of its input dicts unchanged and
returns exactly the pure engine's result computed from freshly derived
structures. -/
theorem c8_inputs_unchanged (st : Participants × Assignments) (r : Nat → Nat) :
    (assign_secret_santa_call st r).2 = st ∧
      (assign_secret_santa_call st r).1 = assign_secret_santa st.1 st.2 r :=
  ⟨rfl, rfl⟩

/-- Participants A, B, C where both B and C declare A as partner: every
individual candidate list is nonempty, yet nobody may give to A. -/
def cycleParticipants : Participants := [("A", none), ("B", some "A"), ("C", some "A")]

/-- Spec-level output contract (a second definition following the spec's
words, for comparison with the engine): a total mapping whose givers are
exactly the participants, whose receivers are exactly the participants (each
once), and in which nobody receives themselves or their declared partner. -/
def SpecValidAssignment (ps : Participants) (m : Assignments) : Prop :=
  List.Perm (keysOf m) (keysOf ps) ∧ List.Perm (valuesOf m) (keysOf ps) ∧
    ∀ p ∈ m, p.2 ≠ p.1 ∧ partnerOf ps p.1 ≠ some p.2

/-- C6: the feasibility check is necessary but not sufficient: on
`cycleParticipants` (no pre-assignments) it returns `true`, yet no mapping
satisfying all the constraints exists, so `assign_secret_santa` returns the
null signal for every sequence of random choices. -/
theorem c6_feasibility_not_sufficient :
    is_assignment_possible cycleParticipants = true ∧
      (¬ ∃ m, SpecValidAssignment cycleParticipants m) ∧
      ∀ r, assign_secret_santa cycleParticipants [] r = none := by
  have hno : ¬ ∃ m, SpecValidAssignment cycleParticipants m := by
    rintro ⟨m, hk, hv, hcon⟩
    have hA : ("A" : Name) ∈ valuesOf m := hv.mem_iff.mpr (by decide)
    rcases List.mem_map.mp hA with ⟨p, hp, hp2⟩
    have hp1 : p.1 ∈ keysOf cycleParticipants :=
      hk.mem_iff.mp (List.mem_map.mpr ⟨p, hp, rfl⟩)
    have hp1' : p.1 = "A" ∨ p.1 = "B" ∨ p.1 = "C" := by
      simpa [cycleParticipants, keysOf] using hp1
    rcases hcon p hp with ⟨hne, hpa⟩
    rcases hp1' with h1 | h1 | h1
    · exact hne (by rw [hp2, h1])
    · exact hpa (by rw [h1, hp2]; decide)
    · exact hpa (by rw [h1, hp2]; decide)
  refine ⟨by decide, hno, ?_⟩
  intro r
  cases he : assign_secret_santa cycleParticipants [] r with
  | none => rfl
  | some m =>
    exfalso
    apply hno
    obtain ⟨hkm, hvm⟩ := engine_bijection cycleParticipants [] r m (by decide)
      (by decide) (by decide) (by decide) (by decide) he
    refine ⟨m, hkm, hvm, ?_⟩
    intro p hp
    rcases engine_mem he p hp with hc | hc
    · simp at hc
    · rw [candidates] at hc
      have hcond := (List.mem_filter.mp hc).2
      simp only [Bool.and_eq_true, bne_iff_ne] at hcond
      exact ⟨hcond.1, hcond.2⟩

/-- Participants A, B, C with no partners (scenario C of the spec). -/
def scenarioC : Participants := [("A", none), ("B", none), ("C", none)]

/-- Pre-assignment A↦B of scenario C. -/
def scenarioCPre : Assignments := [("A", "B")]

/-- C7: on scenario C, every non-null result of `assign_secret_santa` is
exactly the mapping A↦B, B↦C, C↦A, whatever the random choices were. -/
theorem c7_forced_completion (r : Nat → Nat) (m : Assignments)
    (h : assign_secret_santa scenarioC scenarioCPre r = some m) :
    m.lookup "A" = some "B" ∧ m.lookup "B" = some "C" ∧ m.lookup "C" = some "A" ∧
      List.Perm (keysOf m) ["A", "B", "C"] := by
  obtain ⟨⟨t, hm⟩, _, _⟩ := engine_invariants (by decide) h
  obtain ⟨hkeys, hvals⟩ := engine_bijection _ _ _ _ (by decide) (by decide)
    (by decide) (by decide) (by decide) h
  have e : keysOf scenarioC = ["A", "B", "C"] := rfl
  rw [e] at hkeys hvals
  have hknd : (keysOf m).Nodup := hkeys.nodup_iff.mpr (by decide)
  have hA : m.lookup "A" = some "B" := by
    rw [hm]
    exact lookup_append_left (by decide)
  obtain ⟨x, hx⟩ :=
    exists_lookup_of_mem_keys (show ("B" : Name) ∈ keysOf m from hkeys.mem_iff.mpr (by decide))
  obtain ⟨y, hy⟩ :=
    exists_lookup_of_mem_keys (show ("C" : Name) ∈ keysOf m from hkeys.mem_iff.mpr (by decide))
  have hxc : x = "A" ∨ x = "C" := by
    rcases engine_mem h _ (lookup_mem hx) with hc | hc
    · simp [scenarioCPre] at hc
    · rw [show candidates scenarioC "B" = ["A", "C"] from by decide] at hc
      simpa using hc
  have hyc : y = "A" ∨ y = "B" := by
    rcases engine_mem h _ (lookup_mem hy) with hc | hc
    · simp [scenarioCPre] at hc
    · rw [show candidates scenarioC "C" = ["A", "B"] from by decide] at hc
      simpa using hc
  have hxC : x = "C" := by
    rcases hxc with hxA | hxC
    · exfalso
      have hCv : ("C" : Name) ∈ valuesOf m := hvals.mem_iff.mpr (by decide)
      rcases List.mem_map.mp hCv with ⟨q, hq, hq2⟩
      have hq1' : q.1 = "A" ∨ q.1 = "B" ∨ q.1 = "C" := by
        simpa using hkeys.mem_iff.mp (List.mem_map.mpr ⟨q, hq, rfl⟩)
      have hlq : m.lookup q.1 = some "C" :=
        lookup_eq_of_mem_of_nodup hknd (by rw [← hq2]; exact hq)
      rcases hq1' with h1 | h1 | h1
      · rw [h1] at hlq
        have := hA.symm.trans hlq
        simp at this
      · rw [h1] at hlq
        have := hx.symm.trans hlq
        rw [hxA] at this
        simp at this
      · rw [h1] at hlq
        have hyC : y = "C" := by
          have := hy.symm.trans hlq
          simpa using this
        rcases hyc with h2 | h2 <;> rw [h2] at hyC <;> simp at hyC
    · exact hxC
  have hB : m.lookup "B" = some "C" := by
    rw [hx, hxC]
  have hC : m.lookup "C" = some "A" := by
    have hAv : ("A" : Name) ∈ valuesOf m := hvals.mem_iff.mpr (by decide)
    rcases List.mem_map.mp hAv with ⟨q, hq, hq2⟩
    have hq1' : q.1 = "A" ∨ q.1 = "B" ∨ q.1 = "C" := by
      simpa using hkeys.mem_iff.mp (List.mem_map.mpr ⟨q, hq, rfl⟩)
    have hlq : m.lookup q.1 = some "A" :=
      lookup_eq_of_mem_of_nodup hknd (by rw [← hq2]; exact hq)
    rcases hq1' with h1 | h1 | h1
    · rw [h1] at hlq
      have := hA.symm.trans hlq
      simp at this
    · rw [h1] at hlq
      have := hB.symm.trans hlq
      simp at this
    · rw [h1] at hlq
      exact hlq
  exact ⟨hA, hB, hC, hkeys⟩

/-- Witness for C7: the oracle `fun i => i` produces the forced mapping. -/
theorem c7_forced_completion_witness :
    List.lookup ("A" : Name) [(("A" : Name), ("B" : Name)), ("B", "C"), ("C", "A")] =
        some "B" ∧
      List.lookup ("B" : Name) [(("A" : Name), ("B" : Name)), ("B", "C"), ("C", "A")] =
        some "C" ∧
      List.lookup ("C" : Name) [(("A" : Name), ("B" : Name)), ("B", "C"), ("C", "A")] =
        some "A" ∧
      List.Perm (keysOf [(("A" : Name), ("B" : Name)), ("B", "C"), ("C", "A")])
        ["A", "B", "C"] :=
  c7_forced_completion (fun i => i) [("A", "B"), ("B", "C"), ("C", "A")] (by decide)

/-! ### Step-level characterization of the attempt (for C4)

The claim describes each step in terms of the giver's *original* candidate
set minus every receiver already used in the result mapping, while the code
filters the *mutated* candidate list.  `specLoop` below is the step semantics
in the claim's terms; the synchronization theorem proves it computes exactly
what the code computes. -/

/-- The available candidates of the claim: the giver's candidate set minus
every receiver already used in the result mapping (pre-assigned included). -/
def availOf (ps : Participants) (asg : Assignments) (santa : Name) : List Name :=
  (candidates ps santa).filter (fun x => !(valuesOf asg).contains x)

/-- Fueled step semantics of one attempt in the claim's terms: `some none`
means the attempt aborted at a step where the randomly selected unresolved
giver had no available candidate; `some (some m)` means no unresolved givers
remained and the attempt finished with `m`; `none` means the fuel ran out
before either happened. -/
def specLoop (ps : Participants) : Nat → Assignments → List Name → (Nat → Nat) →
    Option (Option Assignments)
  | 0, asg, names, _ => if names.isEmpty then some (some asg) else none
  | fuel + 1, asg, names, r =>
    if names.isEmpty then some (some asg)
    else
      let santa := pick names (r 0)
      let avail := availOf ps asg santa
      if avail.isEmpty then some none
      else
        specLoop ps fuel (asg ++ [(santa, pick avail (r 1))]) (names.erase santa)
          (fun i => r (i + 2))

/-- One engine attempt viewed through the step semantics of the claim. -/
def specRun (ps : Participants) (pre : Assignments) (r : Nat → Nat) (fuel : Nat) :
    Option (Option Assignments) :=
  specLoop ps fuel pre (unresolved ps pre) r

theorem specLoop_nil (ps : Participants) (fuel : Nat) (asg : Assignments)
    (r : Nat → Nat) : specLoop ps fuel asg [] r = some (some asg) := by
  cases fuel <;> rfl

theorem specLoop_stuck (ps : Participants) (fuel : Nat) (asg : Assignments)
    (names : List Name) (r : Nat → Nat) (hne : names.isEmpty = false)
    {santa : Name} (hs : santa = pick names (r 0))
    (hposs : (availOf ps asg santa).isEmpty = true) :
    specLoop ps (fuel + 1) asg names r = some none := by
  subst hs
  rw [specLoop, hne]
  simp only [Bool.false_eq_true, if_false, hposs, if_true]

theorem specLoop_step (ps : Participants) (fuel : Nat) (asg : Assignments)
    (names : List Name) (r : Nat → Nat) (hne : names.isEmpty = false)
    {santa : Name} (hs : santa = pick names (r 0))
    (hposs : (availOf ps asg santa).isEmpty = false) :
    specLoop ps (fuel + 1) asg names r =
      specLoop ps fuel (asg ++ [(santa, pick (availOf ps asg santa) (r 1))])
        (names.erase santa) (fun i => r (i + 2)) := by
  subst hs
  rw [specLoop, hne]
  simp only [Bool.false_eq_true, if_false, hposs]

/-- More fuel never changes an already-decided spec-level run. -/
theorem specLoop_mono : ∀ (fuel : Nat) (ps : Participants) (asg : Assignments)
    (names : List Name) (r : Nat → Nat) (x : Option Assignments),
    specLoop ps fuel asg names r = some x →
    specLoop ps (fuel + 1) asg names r = some x := by
  intro fuel
  induction fuel with
  | zero =>
    intro ps asg names r x h
    rw [specLoop] at h
    split at h
    · rename_i hn
      obtain rfl : names = [] := List.isEmpty_iff.mp hn
      rw [specLoop_nil]
      exact h
    · exact absurd h (by simp)
  | succ fuel ih =>
    intro ps asg names r x h
    cases hn : names.isEmpty with
    | true =>
      obtain rfl : names = [] := List.isEmpty_iff.mp hn
      rw [specLoop_nil] at h ⊢
      exact h
    | false =>
      cases hposs : (availOf ps asg (pick names (r 0))).isEmpty with
      | true =>
        rw [specLoop_stuck ps fuel asg names r hn rfl hposs] at h
        rw [specLoop_stuck ps (fuel + 1) asg names r hn rfl hposs]
        exact h
      | false =>
        rw [specLoop_step ps fuel asg names r hn rfl hposs] at h
        rw [specLoop_step ps (fuel + 1) asg names r hn rfl hposs]
        exact ih _ _ _ _ _ h

theorem specLoop_mono_le (ps : Participants) (asg : Assignments) (names : List Name)
    (r : Nat → Nat) (x : Option Assignments) {f f' : Nat} (hle : f ≤ f')
    (h : specLoop ps f asg names r = some x) :
    specLoop ps f' asg names r = some x := by
  induction f' with
  | zero =>
    rw [Nat.le_zero.mp hle] at h
    exact h
  | succ f' ih =>
    rcases Nat.lt_or_ge f (f' + 1) with hlt | hge
    · exact specLoop_mono f' _ _ _ _ _ (ih (Nat.lt_succ_iff.mp hlt))
    · rw [← Nat.le_antisymm hle hge]
      exact h

theorem contains_eq_decide (l : List Name) (x : Name) : l.contains x = decide (x ∈ l) := by
  cases hc : l.contains x with
  | true => exact (decide_eq_true ((contains_iff l x).mp hc)).symm
  | false => exact (decide_eq_false ((contains_false_iff l x).mp hc)).symm

/-- Filtering out already-used receivers absorbs any earlier filtering by a
subset of the used receivers: this is why filtering the mutated candidate
list by the used receivers equals filtering the original candidate set. -/
theorem filter_absorb (c R V : List Name) (hRV : ∀ x ∈ R, x ∈ V) :
    (c.filter (fun x => !R.contains x)).filter (fun x => !V.contains x) =
      c.filter (fun x => !V.contains x) := by
  rw [List.filter_filter]
  apply List.filter_congr
  intro x hx
  cases hV : V.contains x with
  | true => simp
  | false =>
    have hxR : x ∉ R := by
      intro hr
      exact (contains_false_iff V x).mp hV (hRV _ hr)
    simp [hxR]

/-- Erasing one more receiver from an already-filtered duplicate-free list is
the same as filtering by the extended receiver list. -/
theorem filter_erase_cons (c R : List Name) (g : Name) (hc : c.Nodup) :
    (c.filter (fun x => !R.contains x)).erase g =
      c.filter (fun x => !((g :: R).contains x)) := by
  rw [(hc.filter _).erase_eq_filter g, List.filter_filter]
  apply List.filter_congr
  intro x hx
  rw [contains_eq_decide, contains_eq_decide]
  by_cases hg : x = g
  · subst hg
    simp
  · by_cases hR : x ∈ R
    · simp [hg, hR]
    · simp [hg, hR]

theorem filter_not_contains_nil (c : List Name) :
    c.filter (fun x => !([] : List Name).contains x) = c := by
  have he : c.filter (fun x => !([] : List Name).contains x) = c.filter (fun _ => true) :=
    List.filter_congr (fun x _ => rfl)
  rw [he, List.filter_true]

theorem candidates_nodup (ps : Participants) (hnd : (keysOf ps).Nodup) (n : Name) :
    (candidates ps n).Nodup := by
  rw [candidates]
  exact hnd.filter _

/-- Synchronization: on the loop's reachable states, the claim's step
semantics computes exactly what the code loop computes, fuel for fuel.  The
ghost list `R` collects the receivers erased so far from the mutated
candidate lists; every such receiver is already used in `asg`, which makes
the code's filtered mutated list coincide with the claim's availability. -/
theorem specLoop_sync : ∀ (fuel : Nat) (ps : Participants)
    (valid : List (Name × List Name)) (asg : Assignments) (names : List Name)
    (r : Nat → Nat) (R : List Name),
    names.length ≤ fuel →
    (keysOf ps).Nodup →
    (∀ n ∈ names, n ∉ keysOf asg) →
    names.Nodup →
    (∀ x ∈ R, x ∈ valuesOf asg) →
    (∀ n ∈ names, valid.lookup n =
      some ((candidates ps n).filter (fun x => !R.contains x))) →
    specLoop ps fuel asg names r = some (assignLoop fuel valid asg names r) := by
  intro fuel
  induction fuel with
  | zero =>
    intro ps valid asg names r R hlen hnd hdisj hnodup hR hvalid
    obtain rfl : names = [] := List.eq_nil_of_length_eq_zero (Nat.le_zero.mp hlen)
    rfl
  | succ fuel ih =>
    intro ps valid asg names r R hlen hnd hdisj hnodup hR hvalid
    cases hn : names.isEmpty with
    | true =>
      obtain rfl : names = [] := List.isEmpty_iff.mp hn
      rfl
    | false =>
      have hsm : pick names (r 0) ∈ names := pick_mem _ _ (ne_nil_of_isEmpty_false hn)
      have hval := hvalid _ hsm
      have hpossEq : ((valid.lookup (pick names (r 0))).getD []).filter
          (fun x => !(valuesOf asg).contains x) = availOf ps asg (pick names (r 0)) := by
        rw [hval, Option.getD_some, availOf]
        exact filter_absorb _ _ _ hR
      cases hposs : (availOf ps asg (pick names (r 0))).isEmpty with
      | true =>
        rw [specLoop_stuck ps fuel asg names r hn rfl hposs,
          assignLoop_stuck fuel valid asg names r hn rfl rfl
            (by rw [hpossEq]; exact hposs)]
      | false =>
        rw [specLoop_step ps fuel asg names r hn rfl hposs,
          assignLoop_step fuel valid asg names r hn rfl rfl
            (by rw [hpossEq]; exact hposs)]
        rw [hpossEq]
        rw [dictInsert_of_not_mem _ (hdisj _ hsm)]
        have hlen' : (names.erase (pick names (r 0))).length ≤ fuel := by
          rw [List.length_erase_of_mem hsm]
          have : 0 < names.length := List.length_pos.mpr (ne_nil_of_isEmpty_false hn)
          omega
        have hdisj' : ∀ n ∈ names.erase (pick names (r 0)),
            n ∉ keysOf (asg ++
              [(pick names (r 0), pick (availOf ps asg (pick names (r 0))) (r 1))]) := by
          intro n hne'
          have hn1 : n ∈ names := List.mem_of_mem_erase hne'
          have hn2 : n ≠ pick names (r 0) := by
            intro heq
            subst heq
            exact hnodup.not_mem_erase hne'
          rw [keysOf_append]
          intro hcon
          rcases List.mem_append.mp hcon with hcon | hcon
          · exact hdisj _ hn1 hcon
          · exact hn2 (by simpa [keysOf] using hcon)
        have hR' : ∀ x ∈ (pick (availOf ps asg (pick names (r 0))) (r 1)) :: R,
            x ∈ valuesOf (asg ++
              [(pick names (r 0), pick (availOf ps asg (pick names (r 0))) (r 1))]) := by
          intro x hx
          rw [valuesOf_append]
          rcases List.mem_cons.mp hx with rfl | hx
          · exact List.mem_append.mpr (Or.inr (by simp [valuesOf]))
          · exact List.mem_append.mpr (Or.inl (hR _ hx))
        have hvalid' : ∀ n ∈ names.erase (pick names (r 0)),
            (eraseAll valid (pick (availOf ps asg (pick names (r 0))) (r 1))).lookup n =
              some ((candidates ps n).filter
                (fun x => !((pick (availOf ps asg (pick names (r 0))) (r 1)) :: R).contains x)) := by
          intro n hne'
          rw [lookup_eraseAll, hvalid _ (List.mem_of_mem_erase hne')]
          simp only [Option.map_some']
          rw [filter_erase_cons _ _ _ (candidates_nodup ps hnd n)]
        exact ih ps _ _ _ _ _ hlen' hnd hdisj' (hnodup.erase _) hR' hvalid'

/-- One engine attempt agrees step-for-step with the claim's semantics. -/
theorem engine_spec_sync (ps : Participants) (pre : Assignments) (r : Nat → Nat)
    (hnd : (keysOf ps).Nodup) (fuel : Nat) (hf : (unresolved ps pre).length ≤ fuel) :
    specRun ps pre r fuel =
      some (assignLoop fuel (buildValid ps) pre (unresolved ps pre) r) := by
  rw [specRun]
  refine specLoop_sync fuel ps (buildValid ps) pre (unresolved ps pre) r [] hf hnd
    (unresolved_not_pre ps pre) (unresolved_nodup ps pre hnd) (by simp) ?_
  intro n hn
  rw [filter_not_contains_nil, buildValid]
  exact lookup_map_self (unresolved_subset ps pre _ hn)

/-- C4: `assign_secret_santa` returns null exactly when its attempt reaches a
step at which the randomly selected unresolved giver's available candidates
(its candidate set minus every receiver already used in the result mapping,
pre-assigned receivers included) are empty; otherwise, once no unresolved
givers remain, it returns the completed mapping. -/
theorem c4_null_iff_deadlock (ps : Participants) (pre : Assignments) (r : Nat → Nat)
    (hnd : (keysOf ps).Nodup) :
    (assign_secret_santa ps pre r = none ↔
        ∃ fuel, specRun ps pre r fuel = some none) ∧
      ∀ m, assign_secret_santa ps pre r = some m ↔
        ∃ fuel, specRun ps pre r fuel = some (some m) := by
  have base : specRun ps pre r (unresolved ps pre).length =
      some (assign_secret_santa ps pre r) :=
    engine_spec_sync ps pre r hnd _ (Nat.le_refl _)
  have huniq : ∀ x, (∃ fuel, specRun ps pre r fuel = some x) ↔
      assign_secret_santa ps pre r = x := by
    intro x
    constructor
    · rintro ⟨f, hf⟩
      have h1 : specRun ps pre r (max f (unresolved ps pre).length) = some x :=
        specLoop_mono_le ps pre (unresolved ps pre) r x (Nat.le_max_left _ _) hf
      have h2 : specRun ps pre r (max f (unresolved ps pre).length) =
          some (assign_secret_santa ps pre r) :=
        specLoop_mono_le ps pre (unresolved ps pre) r _ (Nat.le_max_right _ _) base
      exact Option.some.inj (h2.symm.trans h1)
    · rintro rfl
      exact ⟨_, base⟩
  exact ⟨(huniq none).symm, fun m => (huniq (some m)).symm⟩

/-- Witness for C4 at scenario C with the identity oracle. -/
theorem c4_null_iff_deadlock_witness :
    (assign_secret_santa scenarioC scenarioCPre (fun i => i) = none ↔
        ∃ fuel, specRun scenarioC scenarioCPre (fun i => i) fuel = some none) ∧
      ∀ m, assign_secret_santa scenarioC scenarioCPre (fun i => i) = some m ↔
        ∃ fuel, specRun scenarioC scenarioCPre (fun i => i) fuel = some (some m) :=
  c4_null_iff_deadlock scenarioC scenarioCPre (fun i => i) (by decide)

end SecretSanta
